import Mathlib

/-!
Verification of the waybar config patching scripts (`fix_waybar.py`,
`debug_waybar_patch.py`).

The scripts manipulate a parsed JSON document (a Python dict).  We embed
JSON values as the inductive type `JVal`; objects are association lists in
insertion order, matching Python dict semantics (`dget` reads the first
binding of a key, `dset` updates the first binding in place or appends a
new binding at the end, exactly like `d[k] = v`).

`ensureModulePlacement` is the placement block of `debug_waybar_patch.py`
(lines 49-67); its drawer-group branch is line-for-line identical to the
one in `fix_waybar.py` (lines 56-73).  `upsertModuleDefinition` is the
merge/create upsert of `fix_waybar.py` (lines 40-54), generalised over the
supplied field set.  `get_terminal_cmd` appears identically in both
scripts.

Every comparison the scripts perform on JSON values compares a value
against a string literal (`x != "custom/wizado"`, `"tray" in mods`, ...);
Python's `==` between a string and a non-string value is `False`, which is
exactly `jstr_eq` below.
-/

namespace WizadoOmarchy

/-- A JSON value, as produced by `json.loads`.  Numbers are modelled as
integers (the configs in play only use integer fields such as
`"interval": 2`). Object entries keep insertion order, like Python dicts. -/
inductive JVal : Type where
  | null : JVal
  | bool (b : Bool) : JVal
  | num (n : Int) : JVal
  | str (s : String) : JVal
  | arr (elems : List JVal) : JVal
  | obj (entries : List (String × JVal)) : JVal

/-- A JSON object body: the entry list of a Python dict, in insertion order. -/
abbrev JObj := List (String × JVal)

/-- Python `x == s` for a JSON value `x` and a string literal `s`: true
exactly when `x` is that string. -/
def jstr_eq (x : JVal) (s : String) : Bool :=
  match x with
  | JVal.str t => t == s
  | _ => false

/-- `d.get(k)`: the value of the first binding of `k`, if any. -/
def dget : JObj → String → Option JVal
  | [], _ => none
  | (k', v) :: rest, k => if k' = k then some v else dget rest k

/-- `d.get(k, default)`. -/
def dgetD (o : JObj) (k : String) (d : JVal) : JVal :=
  (dget o k).getD d

/-- `d[k] = v`: replace the first binding of `k`, or append a new binding. -/
def dset : JObj → String → JVal → JObj
  | [], k, v => [(k, v)]
  | (k', v') :: rest, k, v =>
      if k' = k then (k, v) :: rest else (k', v') :: dset rest k v

/-- The custom module identifier hard-coded in both scripts. -/
def wizado_id : String := "custom/wizado"

/-- The sentinel prepended when the module would be first in a drawer. -/
def expand_icon_id : String := "custom/expand-icon"

/-- `remove_module(arr, mod)` from both scripts: on a list, drop every
element equal to the module id; any non-list value is returned unchanged. -/
def remove_module (v : JVal) (mod : String) : JVal :=
  match v with
  | JVal.arr xs => JVal.arr (xs.filter (fun x => !jstr_eq x mod))
  | other => other

/-- Python `k.startswith("group/")`, computed on the character list. -/
def starts_with_group (k : String) : Bool :=
  List.isPrefixOf "group/".data k.data

/-- `isinstance(v, dict) and isinstance(v.get("modules"), list)`:
the structural test a drawer-group candidate must pass. -/
def group_has_module_list (v : JVal) : Bool :=
  match v with
  | JVal.obj g =>
      match dget g "modules" with
      | some (JVal.arr _) => true
      | _ => false
  | _ => false

/-- The `for k, v in cfg_obj.items()` scan of `find_drawer_group_key`:
the first key with the `group/` name space whose value passes the
structural test.  (Keys of a parsed JSON object are always strings, so the
`isinstance(k, str)` guard of the source never fires.) -/
def scan_groups : JObj → Option String
  | [] => none
  | (k, v) :: rest =>
      if starts_with_group k && group_has_module_list v then some k
      else scan_groups rest

/-- `find_drawer_group_key(cfg_obj)` from both scripts: prefer
`"group/tray-expander"` when it passes the structural test, otherwise the
first structurally matching `group/*` key in insertion order. -/
def find_drawer_group_key (cfg : JObj) : Option String :=
  if group_has_module_list (dgetD cfg "group/tray-expander" JVal.null) then
    some "group/tray-expander"
  else scan_groups cfg

/-- The body of the `if "custom/wizado" not in mods` block of the drawer
branch (both scripts): insert after the `"tray"` sentinel when present
(`mods[:index("tray")+1] + [wizado] + mods[index("tray")+1:]`), otherwise
append, prepending the expand-icon sentinel when the append would leave the
module first.  When the module is already present the list is unchanged. -/
def patch_group_modules (mods : List JVal) : List JVal :=
  if mods.any (fun x => jstr_eq x wizado_id) then mods
  else if mods.any (fun x => jstr_eq x "tray") then
    mods.takeWhile (fun x => !jstr_eq x "tray") ++
      JVal.str "tray" :: JVal.str wizado_id ::
        (mods.dropWhile (fun x => !jstr_eq x "tray")).tail
  else
    if jstr_eq ((mods ++ [JVal.str wizado_id]).headD JVal.null) wizado_id then
      JVal.str expand_icon_id :: (mods ++ [JVal.str wizado_id])
    else mods ++ [JVal.str wizado_id]

/-- The drawer branch of the patch (both scripts):
`group = cfg.get(group_key, {}); mods = group.get("modules", [])`, patch
`mods` when it is a list, then `group["modules"] = mods;
cfg[group_key] = group`.  The two fall-through branches are unreachable
when `gk` comes from `find_drawer_group_key` (which only returns keys
bound to a dict with a list-valued `"modules"`); in Python the non-dict
case would raise before any write. -/
def patch_located_group (cfg : JObj) (gk : String) : JObj :=
  match dgetD cfg gk (JVal.obj []) with
  | JVal.obj g =>
      match dgetD g "modules" (JVal.arr []) with
      | JVal.arr ms =>
          dset cfg gk (JVal.obj (dset g "modules" (JVal.arr (patch_group_modules ms))))
      | _ => cfg
  | _ => cfg

/-- The flat lists cleaned by the drawer branch, in the loop order of the
source: `for list_key in ("modules-right", "modules-left", "modules-center")`. -/
def flat_keys : List String := ["modules-right", "modules-left", "modules-center"]

/-- The cleanup loop of the drawer branch:
`cfg[list_key] = remove_module(cfg.get(list_key, []), "custom/wizado")`. -/
def remove_from_flats : JObj → List String → JObj
  | cfg, [] => cfg
  | cfg, k :: rest =>
      remove_from_flats
        (dset cfg k (remove_module (dgetD cfg k (JVal.arr [])) wizado_id)) rest

/-- The anchor list probed by `inject_right`, in the order of the source:
`for target in ["bluetooth", "network", "pulseaudio", "cpu", "battery"]`. -/
def anchor_targets : List String := ["bluetooth", "network", "pulseaudio", "cpu", "battery"]

/-- `inject_right(arr)` from `debug_waybar_patch.py`: a non-list value is
replaced by the singleton module list; a list already holding the module is
returned unchanged; otherwise the module is inserted before the first
occurrence of the first anchor (in probe order) present in the list
(`arr[:i] + [wizado] + arr[i:]` with `i = arr.index(target)`), or appended
when no anchor is present. -/
def inject_right (v : JVal) : JVal :=
  match v with
  | JVal.arr xs =>
      if xs.any (fun x => jstr_eq x wizado_id) then JVal.arr xs
      else
        match anchor_targets.find? (fun t => xs.any (fun x => jstr_eq x t)) with
        | some t =>
            JVal.arr (xs.takeWhile (fun x => !jstr_eq x t) ++
              JVal.str wizado_id :: xs.dropWhile (fun x => !jstr_eq x t))
        | none => JVal.arr (xs ++ [JVal.str wizado_id])
  | _ => JVal.arr [JVal.str wizado_id]

/-- `ensureModulePlacement` (spec section 4.1): the placement block of
`debug_waybar_patch.py` lines 49-67.  The drawer branch (identical in
`fix_waybar.py` lines 56-73) patches the located group and cleans the flat
lists; the else branch is `cfg["modules-right"] =
inject_right(cfg.get("modules-right", []))`. -/
def ensureModulePlacement (cfg : JObj) : JObj :=
  match find_drawer_group_key cfg with
  | some gk => remove_from_flats (patch_located_group cfg gk) flat_keys
  | none =>
      dset cfg "modules-right"
        (inject_right (dgetD cfg "modules-right" (JVal.arr [])))

/-- Successive assignments `existing[k] = v` for each supplied field, in
order: the merge step of the upsert (`fix_waybar.py` lines 42-44 assign the
supplied fields into the existing dict one by one). -/
def dset_all (o : JObj) : JObj → JObj
  | [] => o
  | (k, v) :: rest => dset_all (dset o k v) rest

/-- `upsertModuleDefinition` (spec section 4.1), from `fix_waybar.py`
lines 40-54, generalised over the supplied field set: when the module id is
bound to a dict, assign every supplied field into it (merge); when it is
absent, bind it to a fresh dict of the supplied fields.  A binding to a
non-dict value would raise in Python before any write; that branch is
modelled as a no-op and is unreachable under the claims' hypotheses. -/
def upsertModuleDefinition (cfg : JObj) (mid : String) (fields : JObj) : JObj :=
  match dget cfg mid with
  | some (JVal.obj existing) => dset cfg mid (JVal.obj (dset_all existing fields))
  | some _ => cfg
  | none => dset cfg mid (JVal.obj fields)

/-- The probe list of `get_terminal_cmd`, in source order. -/
def terms : List String := ["ghostty", "alacritty", "kitty", "foot", "gnome-terminal", "konsole"]

/-- The probe loop of `get_terminal_cmd`, parameterised by the external
`shutil.which` (modelled as a presence predicate). -/
def get_terminal_cmd_from : List String → (String → Bool) → String
  | [], _ => "alacritty -e"
  | t :: rest, which =>
      if which t then
        if t = "gnome-terminal" then t ++ " --"
        else if t = "konsole" then t ++ " -e"
        else t ++ " -e"
      else get_terminal_cmd_from rest which

/-- `get_terminal_cmd()` from both scripts. -/
def get_terminal_cmd (which : String → Bool) : String :=
  get_terminal_cmd_from terms which

/-- Is the module id present in a value, counting only list values?  Used
to state the single-location invariant of the spec. -/
def list_has_wiz (v : JVal) : Bool :=
  match v with
  | JVal.arr xs => xs.any (fun x => jstr_eq x wizado_id)
  | _ => false

/-- Does a top-level entry carry the module id inside a drawer group
(`group/*` key whose dict's `modules` list holds the id)? -/
def group_entry_has_wiz (e : String × JVal) : Bool :=
  starts_with_group e.1 &&
    (match e.2 with
     | JVal.obj g => list_has_wiz (dgetD g "modules" JVal.null)
     | _ => false)

/-- The number of flat module lists (`modules-right`, `modules-left`,
`modules-center`) holding the module id. -/
def flat_wiz_count (cfg : JObj) : Nat :=
  (if list_has_wiz (dgetD cfg "modules-right" JVal.null) then 1 else 0) +
  (if list_has_wiz (dgetD cfg "modules-left" JVal.null) then 1 else 0) +
  (if list_has_wiz (dgetD cfg "modules-center" JVal.null) then 1 else 0)

/-- The number of drawer-group entries whose `modules` list holds the
module id. -/
def group_wiz_count (cfg : JObj) : Nat :=
  (cfg.filter group_entry_has_wiz).length

/-- Total number of module-list locations holding the module id: the flat
lists plus every group entry's nested list (spec section 3 invariant). -/
def wiz_location_count (cfg : JObj) : Nat :=
  flat_wiz_count cfg + group_wiz_count cfg

/-- Modelled from claim C1's words, not from the source: insert the module
id immediately before the first element of the list that belongs to the
anchor set, or append it at the end when no anchor-set member is present.
Used only to compare the claimed insertion point with the code's. -/
def spec_insert_right (xs : List JVal) : List JVal :=
  xs.takeWhile (fun x => !anchor_targets.any (fun a => jstr_eq x a)) ++
    JVal.str wizado_id ::
      xs.dropWhile (fun x => !anchor_targets.any (fun a => jstr_eq x a))

/-- One line of the comment stripper: `re.sub(r"//.*?$", "", line)` keeps
everything before the first `//`. -/
def strip_line_comment (line : String) : String :=
  (line.splitOn "//").headD ""

/-- The jsonc stripper of both scripts: `re.sub(r"//.*?$", "", raw,
flags=re.M)` applied line by line. -/
def strip_comments (raw : String) : String :=
  String.intercalate "\n" ((raw.splitOn "\n").map strip_line_comment)

/-- The full in-memory transform of `debug_waybar_patch.py`: placement,
then the wholesale assignment `cfg["custom/wizado"] = {...}`.  The dict
assigned depends on the detected terminal and home directory, both
external; it is the `moduleDef` parameter here. -/
def full_transform (cfg : JObj) (moduleDef : JVal) : JObj :=
  dset (ensureModulePlacement cfg) wizado_id moduleDef

/-- The read-transform-write structure of `debug_waybar_patch.py` inside
its top-level `try`: the disk is the config file's contents (`none` means
the read raises), `loads` models `json.loads` (`none` means it raises),
`dumps` models `json.dumps`.  A parse result that is not a JSON object
raises `AttributeError` inside `find_drawer_group_key` before any write.
The function returns the file contents after the run: every failure leaves
the disk untouched, and only a fully transformed document is written
(pretty-printed with a trailing newline). -/
def runScript (loads : String → Option JVal) (dumps : JObj → String)
    (moduleDef : JVal) (disk : Option String) : Option String :=
  match disk with
  | none => disk
  | some raw =>
      match loads (strip_comments raw) with
      | none => disk
      | some (JVal.obj cfg) => some (dumps (full_transform cfg moduleDef) ++ "\n")
      | some _ => disk

/-! ### Association-list lemmas -/

theorem dget_dset_self (l : JObj) (k : String) (v : JVal) :
    dget (dset l k v) k = some v := by
  induction l with
  | nil => simp [dset, dget]
  | cons kv rest ih =>
    obtain ⟨k', v'⟩ := kv
    by_cases h : k' = k
    · subst h; simp [dset, dget]
    · simp [dset, dget, h, ih]

theorem dget_dset_ne (l : JObj) (k k' : String) (v : JVal) (h : k' ≠ k) :
    dget (dset l k v) k' = dget l k' := by
  induction l with
  | nil => simp [dset, dget, Ne.symm h]
  | cons kv rest ih =>
    obtain ⟨a, b⟩ := kv
    by_cases hak : a = k
    · subst hak
      simp [dset, dget, Ne.symm h]
    · by_cases hak' : a = k'
      · subst hak'; simp [dset, dget, hak]
      · simp [dset, dget, hak, hak', ih]

theorem dset_same (l : JObj) (k : String) (v : JVal)
    (h : dget l k = some v) : dset l k v = l := by
  induction l with
  | nil => simp [dget] at h
  | cons kv rest ih =>
    obtain ⟨a, b⟩ := kv
    by_cases hak : a = k
    · subst hak
      simp [dget] at h
      simp [dset, h]
    · simp [dget, hak] at h
      simp [dset, hak, ih h]

theorem dget_some_mem_keys {l : JObj} {k : String} {v : JVal}
    (h : dget l k = some v) : k ∈ l.map Prod.fst := by
  induction l with
  | nil => simp [dget] at h
  | cons kv rest ih =>
    obtain ⟨a, b⟩ := kv
    by_cases hak : a = k
    · subst hak; simp
    · simp [dget, hak] at h
      simp [ih h]

theorem dget_eq_none_of_not_mem {l : JObj} {k : String}
    (h : k ∉ l.map Prod.fst) : dget l k = none := by
  induction l with
  | nil => simp [dget]
  | cons kv rest ih =>
    obtain ⟨a, b⟩ := kv
    rw [List.map_cons, List.mem_cons, not_or] at h
    obtain ⟨h1, h2⟩ := h
    simp [dget, Ne.symm h1, ih h2]

/-! ### Lemmas about the value-level operations -/

theorem remove_module_idem (v : JVal) (m : String) :
    remove_module (remove_module v m) m = remove_module v m := by
  cases v <;> simp [remove_module]

theorem list_has_wiz_remove (v : JVal) :
    list_has_wiz (remove_module v wizado_id) = false := by
  cases v with
  | arr xs =>
    simp only [remove_module, list_has_wiz]
    rw [List.any_eq_false]
    intro x hx
    rw [List.mem_filter] at hx
    simpa using hx.2
  | null => rfl
  | bool b => rfl
  | num n => rfl
  | str s => rfl
  | obj g => rfl

theorem remove_module_not_arr {v : JVal} (h : ∀ xs, v ≠ JVal.arr xs) :
    remove_module v wizado_id = v := by
  cases v <;> first
    | rfl
    | exact absurd rfl (h _)

theorem patch_group_modules_has_wiz (ms : List JVal) :
    (patch_group_modules ms).any (fun x => jstr_eq x wizado_id) = true := by
  unfold patch_group_modules
  by_cases h1 : (ms.any fun x => jstr_eq x wizado_id) = true
  · rw [if_pos h1]; exact h1
  · rw [if_neg h1]
    by_cases h2 : (ms.any fun x => jstr_eq x "tray") = true
    · rw [if_pos h2]
      simp only [List.any_append, List.any_cons]
      simp [jstr_eq]
    · rw [if_neg h2]
      by_cases h3 :
          jstr_eq ((ms ++ [JVal.str wizado_id]).headD JVal.null) wizado_id = true
      · rw [if_pos h3]
        simp only [List.any_cons, List.any_append]
        simp [jstr_eq]
      · rw [if_neg h3]
        simp only [List.any_append, List.any_cons]
        simp [jstr_eq]

theorem patch_group_modules_of_has_wiz {ms : List JVal}
    (h : ms.any (fun x => jstr_eq x wizado_id) = true) :
    patch_group_modules ms = ms := by
  simp [patch_group_modules, h]

theorem patch_group_modules_idem (ms : List JVal) :
    patch_group_modules (patch_group_modules ms) = patch_group_modules ms :=
  patch_group_modules_of_has_wiz (patch_group_modules_has_wiz ms)

theorem inject_right_is_arr_has_wiz (v : JVal) :
    ∃ xs, inject_right v = JVal.arr xs ∧ xs.any (fun x => jstr_eq x wizado_id) = true := by
  cases v with
  | arr xs =>
    by_cases h1 : (xs.any fun x => jstr_eq x wizado_id) = true
    · exact ⟨xs, by rw [inject_right, if_pos h1], h1⟩
    · cases hf : anchor_targets.find? (fun t => xs.any (fun x => jstr_eq x t)) with
      | some t =>
        refine ⟨xs.takeWhile (fun x => !jstr_eq x t) ++
            JVal.str wizado_id :: xs.dropWhile (fun x => !jstr_eq x t), ?_, ?_⟩
        · rw [inject_right, if_neg h1, hf]
        · simp only [List.any_append, List.any_cons]
          simp [jstr_eq]
      | none =>
        refine ⟨xs ++ [JVal.str wizado_id], ?_, ?_⟩
        · rw [inject_right, if_neg h1, hf]
        · simp only [List.any_append, List.any_cons]
          simp [jstr_eq]
  | null => exact ⟨_, rfl, by simp [jstr_eq]⟩
  | bool b => exact ⟨_, rfl, by simp [jstr_eq]⟩
  | num n => exact ⟨_, rfl, by simp [jstr_eq]⟩
  | str s => exact ⟨_, rfl, by simp [jstr_eq]⟩
  | obj g => exact ⟨_, rfl, by simp [jstr_eq]⟩

theorem inject_right_of_has_wiz {xs : List JVal}
    (h : xs.any (fun x => jstr_eq x wizado_id) = true) :
    inject_right (JVal.arr xs) = JVal.arr xs := by
  simp [inject_right, h]

theorem inject_right_idem (v : JVal) :
    inject_right (inject_right v) = inject_right v := by
  obtain ⟨xs, hx, hw⟩ := inject_right_is_arr_has_wiz v
  rw [hx, inject_right_of_has_wiz hw]

theorem list_has_wiz_inject_right (v : JVal) :
    list_has_wiz (inject_right v) = true := by
  obtain ⟨xs, hx, hw⟩ := inject_right_is_arr_has_wiz v
  rw [hx]
  simpa [list_has_wiz] using hw

/-! ### Lemmas about the drawer-group search -/

theorem scan_groups_some_starts {l : JObj} {k : String}
    (h : scan_groups l = some k) : starts_with_group k = true := by
  induction l with
  | nil => simp [scan_groups] at h
  | cons kv rest ih =>
    obtain ⟨a, b⟩ := kv
    by_cases hc : starts_with_group a && group_has_module_list b
    · rw [scan_groups, if_pos hc] at h
      injection h with h; subst h
      rw [Bool.and_eq_true] at hc
      exact hc.1
    · rw [scan_groups, if_neg hc] at h
      exact ih h

theorem scan_groups_some_mem_keys {l : JObj} {k : String}
    (h : scan_groups l = some k) : k ∈ l.map Prod.fst := by
  induction l with
  | nil => simp [scan_groups] at h
  | cons kv rest ih =>
    obtain ⟨a, b⟩ := kv
    by_cases hc : starts_with_group a && group_has_module_list b
    · rw [scan_groups, if_pos hc] at h
      injection h with h; subst h
      simp
    · rw [scan_groups, if_neg hc] at h
      simp [ih h]

theorem scan_groups_sound {l : JObj} {k : String}
    (hn : (l.map Prod.fst).Nodup) (h : scan_groups l = some k) :
    ∃ v, dget l k = some v ∧ group_has_module_list v = true := by
  induction l with
  | nil => simp [scan_groups] at h
  | cons kv rest ih =>
    obtain ⟨a, b⟩ := kv
    rw [List.map_cons, List.nodup_cons] at hn
    obtain ⟨hna, hnr⟩ := hn
    by_cases hc : starts_with_group a && group_has_module_list b
    · rw [scan_groups, if_pos hc] at h
      injection h with h; subst h
      rw [Bool.and_eq_true] at hc
      exact ⟨b, by simp [dget], hc.2⟩
    · rw [scan_groups, if_neg hc] at h
      obtain ⟨v, hv, hgv⟩ := ih hnr h
      have hak : ¬ a = k := by
        intro hh; subst hh
        exact hna (dget_some_mem_keys hv)
      exact ⟨v, by simp [dget, hak, hv], hgv⟩

theorem scan_groups_dset_not_group {l : JObj} {k : String} {v : JVal}
    (h : starts_with_group k = false) :
    scan_groups (dset l k v) = scan_groups l := by
  induction l with
  | nil => simp [dset, scan_groups, h]
  | cons kv rest ih =>
    obtain ⟨a, b⟩ := kv
    by_cases hak : a = k
    · subst hak
      simp [dset, scan_groups, h]
    · rw [dset, if_neg hak]
      by_cases hc : starts_with_group a && group_has_module_list b
      · rw [scan_groups, if_pos hc, scan_groups, if_pos hc]
      · rw [scan_groups, if_neg hc, scan_groups, if_neg hc]
        exact ih

theorem scan_groups_dset_found {l : JObj} {k : String} {v : JVal}
    (hn : (l.map Prod.fst).Nodup) (h : scan_groups l = some k)
    (hv : group_has_module_list v = true) :
    scan_groups (dset l k v) = some k := by
  induction l with
  | nil => simp [scan_groups] at h
  | cons kv rest ih =>
    obtain ⟨a, b⟩ := kv
    rw [List.map_cons, List.nodup_cons] at hn
    obtain ⟨hna, hnr⟩ := hn
    by_cases hc : starts_with_group a && group_has_module_list b
    · rw [scan_groups, if_pos hc] at h
      injection h with h; subst h
      rw [Bool.and_eq_true] at hc
      simp [dset, scan_groups, hc.1, hv]
    · rw [scan_groups, if_neg hc] at h
      have hak : ¬ a = k := by
        intro hh; subst hh
        exact hna (scan_groups_some_mem_keys h)
      rw [dset, if_neg hak, scan_groups, if_neg hc]
      exact ih hnr h

theorem group_has_module_list_elim {v : JVal}
    (h : group_has_module_list v = true) :
    ∃ g ms, v = JVal.obj g ∧ dget g "modules" = some (JVal.arr ms) := by
  cases v with
  | obj g =>
    cases hm : dget g "modules" with
    | none => simp [group_has_module_list, hm] at h
    | some w =>
      cases w with
      | arr ms => exact ⟨g, ms, rfl, hm⟩
      | null => simp [group_has_module_list, hm] at h
      | bool b => simp [group_has_module_list, hm] at h
      | num n => simp [group_has_module_list, hm] at h
      | str s => simp [group_has_module_list, hm] at h
      | obj g2 => simp [group_has_module_list, hm] at h
  | null => simp [group_has_module_list] at h
  | bool b => simp [group_has_module_list] at h
  | num n => simp [group_has_module_list] at h
  | str s => simp [group_has_module_list] at h
  | arr xs => simp [group_has_module_list] at h

theorem find_some_starts {cfg : JObj} {gk : String}
    (h : find_drawer_group_key cfg = some gk) : starts_with_group gk = true := by
  unfold find_drawer_group_key at h
  by_cases hp : group_has_module_list (dgetD cfg "group/tray-expander" JVal.null) = true
  · rw [if_pos hp] at h
    injection h with h; subst h
    decide
  · rw [if_neg hp] at h
    exact scan_groups_some_starts h

theorem find_drawer_group_key_sound {cfg : JObj} {gk : String}
    (hn : (cfg.map Prod.fst).Nodup) (h : find_drawer_group_key cfg = some gk) :
    ∃ g ms, dget cfg gk = some (JVal.obj g) ∧ dget g "modules" = some (JVal.arr ms) := by
  unfold find_drawer_group_key at h
  by_cases hp : group_has_module_list (dgetD cfg "group/tray-expander" JVal.null) = true
  · rw [if_pos hp] at h
    injection h with h; subst h
    cases hd : dget cfg "group/tray-expander" with
    | none =>
      rw [dgetD, hd] at hp
      simp [group_has_module_list] at hp
    | some v =>
      rw [dgetD, hd, Option.getD_some] at hp
      obtain ⟨g, ms, rfl, hm⟩ := group_has_module_list_elim hp
      exact ⟨g, ms, rfl, hm⟩
  · rw [if_neg hp] at h
    obtain ⟨v, hv, hgv⟩ := scan_groups_sound hn h
    obtain ⟨g, ms, rfl, hm⟩ := group_has_module_list_elim hgv
    exact ⟨g, ms, hv, hm⟩

theorem starts_not_flat {k : String} (h : starts_with_group k = true) :
    k ∉ flat_keys := by
  intro hm
  simp only [flat_keys, List.mem_cons, List.not_mem_nil, or_false] at hm
  rcases hm with rfl | rfl | rfl <;> exact absurd h (by decide)

theorem find_none_elim {cfg : JObj} (h : find_drawer_group_key cfg = none) :
    group_has_module_list (dgetD cfg "group/tray-expander" JVal.null) = false
      ∧ scan_groups cfg = none := by
  unfold find_drawer_group_key at h
  by_cases hp : group_has_module_list (dgetD cfg "group/tray-expander" JVal.null) = true
  · rw [if_pos hp] at h
    simp at h
  · rw [if_neg hp] at h
    rw [Bool.not_eq_true] at hp
    exact ⟨hp, h⟩

theorem find_none_intro {cfg : JObj}
    (h1 : group_has_module_list (dgetD cfg "group/tray-expander" JVal.null) = false)
    (h2 : scan_groups cfg = none) :
    find_drawer_group_key cfg = none := by
  unfold find_drawer_group_key
  rw [h1, if_neg (by simp), h2]

/-! ### Lemmas about the drawer branch of the patch -/

theorem dgetD_dset_ne (l : JObj) (k k' : String) (v d : JVal) (h : k' ≠ k) :
    dgetD (dset l k v) k' d = dgetD l k' d := by
  rw [dgetD, dgetD, dget_dset_ne _ _ _ _ h]

theorem rff_dget_not_mem {l : JObj} {ks : List String} {k : String}
    (h : k ∉ ks) :
    dget (remove_from_flats l ks) k = dget l k := by
  induction ks generalizing l with
  | nil => rfl
  | cons a rest ih =>
    rw [List.mem_cons, not_or] at h
    rw [remove_from_flats, ih h.2, dget_dset_ne _ _ _ _ h.1]

theorem rff_dget_mem {l : JObj} {ks : List String} {k : String}
    (hn : ks.Nodup) (h : k ∈ ks) :
    dget (remove_from_flats l ks) k
      = some (remove_module (dgetD l k (JVal.arr [])) wizado_id) := by
  induction ks generalizing l with
  | nil => simp at h
  | cons a rest ih =>
    rw [List.nodup_cons] at hn
    rw [remove_from_flats]
    rcases List.mem_cons.mp h with rfl | hmem
    · rw [rff_dget_not_mem hn.1, dget_dset_self]
    · have hka : k ≠ a := fun hh => hn.1 (hh ▸ hmem)
      rw [ih hn.2 hmem, dgetD_dset_ne _ _ _ _ _ hka]

theorem rff_scan {l : JObj} {ks : List String}
    (h : ∀ k ∈ ks, starts_with_group k = false) :
    scan_groups (remove_from_flats l ks) = scan_groups l := by
  induction ks generalizing l with
  | nil => rfl
  | cons a rest ih =>
    rw [remove_from_flats, ih (fun k hk => h k (List.mem_cons_of_mem _ hk)),
      scan_groups_dset_not_group (h a (List.mem_cons_self _ _))]

theorem rff_fixed {l : JObj} {ks : List String}
    (h : ∀ k ∈ ks, ∃ v, dget l k = some v ∧ remove_module v wizado_id = v) :
    remove_from_flats l ks = l := by
  induction ks generalizing l with
  | nil => rfl
  | cons a rest ih =>
    obtain ⟨v, hv, hrv⟩ := h a (List.mem_cons_self _ _)
    rw [remove_from_flats, dgetD, hv, Option.getD_some, hrv, dset_same _ _ _ hv]
    exact ih (fun k hk => h k (List.mem_cons_of_mem _ hk))

theorem rff_establishes {l : JObj} {ks : List String} (hn : ks.Nodup) :
    ∀ k ∈ ks, ∃ v, dget (remove_from_flats l ks) k = some v
      ∧ remove_module v wizado_id = v :=
  fun k hk =>
    ⟨remove_module (dgetD l k (JVal.arr [])) wizado_id,
      rff_dget_mem hn hk, remove_module_idem _ _⟩

theorem flat_keys_nodup : flat_keys.Nodup := by decide

theorem flat_keys_not_group : ∀ k ∈ flat_keys, starts_with_group k = false := by decide

theorem plg_shape (cfg : JObj) (gk : String) :
    patch_located_group cfg gk = cfg
      ∨ ∃ w, patch_located_group cfg gk = dset cfg gk w := by
  cases hx : dgetD cfg gk (JVal.obj []) with
  | obj g =>
    cases hy : dgetD g "modules" (JVal.arr []) with
    | arr ms =>
      exact Or.inr ⟨JVal.obj (dset g "modules" (JVal.arr (patch_group_modules ms))),
        by simp only [patch_located_group, hx, hy]⟩
    | null => exact Or.inl (by simp only [patch_located_group, hx, hy])
    | bool b => exact Or.inl (by simp only [patch_located_group, hx, hy])
    | num n => exact Or.inl (by simp only [patch_located_group, hx, hy])
    | str s => exact Or.inl (by simp only [patch_located_group, hx, hy])
    | obj g2 => exact Or.inl (by simp only [patch_located_group, hx, hy])
  | null => exact Or.inl (by simp only [patch_located_group, hx])
  | bool b => exact Or.inl (by simp only [patch_located_group, hx])
  | num n => exact Or.inl (by simp only [patch_located_group, hx])
  | str s => exact Or.inl (by simp only [patch_located_group, hx])
  | arr xs => exact Or.inl (by simp only [patch_located_group, hx])

theorem plg_dget_ne {cfg : JObj} {gk k : String} (h : k ≠ gk) :
    dget (patch_located_group cfg gk) k = dget cfg k := by
  rcases plg_shape cfg gk with he | ⟨w, he⟩
  · rw [he]
  · rw [he, dget_dset_ne _ _ _ _ h]

theorem plg_eq {cfg : JObj} {gk : String} {g : JObj} {ms : List JVal}
    (hg : dget cfg gk = some (JVal.obj g))
    (hm : dget g "modules" = some (JVal.arr ms)) :
    patch_located_group cfg gk
      = dset cfg gk (JVal.obj (dset g "modules" (JVal.arr (patch_group_modules ms)))) := by
  simp only [patch_located_group, dgetD, hg, hm, Option.getD_some]

/-! ### The claims -/

/-- C3.  `ensureModulePlacement` is idempotent: applying the placement
operation twice yields the document of a single application — no second
insertion of the module id and no second expand-icon sentinel.  The key
hypothesis models a parsed JSON object: Python dicts never repeat a key. -/
theorem ensureModulePlacement_idem (cfg : JObj)
    (hn : (cfg.map Prod.fst).Nodup) :
    ensureModulePlacement (ensureModulePlacement cfg) = ensureModulePlacement cfg := by
  have keyN : ∀ r : JObj, find_drawer_group_key r = none →
      ensureModulePlacement r
        = dset r "modules-right" (inject_right (dgetD r "modules-right" (JVal.arr []))) :=
    fun r hr => by simp only [ensureModulePlacement, hr]
  have keyS : ∀ (r : JObj) (k : String), find_drawer_group_key r = some k →
      ensureModulePlacement r = remove_from_flats (patch_located_group r k) flat_keys :=
    fun r k hr => by simp only [ensureModulePlacement, hr]
  cases hf : find_drawer_group_key cfg with
  | none =>
    obtain ⟨hp, hs⟩ := find_none_elim hf
    have h1 := keyN cfg hf
    have hget : dget (ensureModulePlacement cfg) "modules-right"
        = some (inject_right (dgetD cfg "modules-right" (JVal.arr []))) := by
      rw [h1, dget_dset_self]
    have hfr : find_drawer_group_key (ensureModulePlacement cfg) = none := by
      apply find_none_intro
      · rw [h1, dgetD_dset_ne _ _ _ _ _ (by decide)]
        exact hp
      · rw [h1, scan_groups_dset_not_group (by decide)]
        exact hs
    rw [keyN _ hfr, dgetD, hget, Option.getD_some, inject_right_idem]
    exact dset_same _ _ _ hget
  | some gk =>
    obtain ⟨g, ms, hg, hm⟩ := find_drawer_group_key_sound hn hf
    have hplg := plg_eq hg hm
    have hstarts : starts_with_group gk = true := find_some_starts hf
    have hflat : gk ∉ flat_keys := starts_not_flat hstarts
    have h1 := keyS cfg gk hf
    have hgetgk : dget (ensureModulePlacement cfg) gk
        = some (JVal.obj (dset g "modules" (JVal.arr (patch_group_modules ms)))) := by
      rw [h1, rff_dget_not_mem hflat, hplg, dget_dset_self]
    have hmods2 :
        dget (dset g "modules" (JVal.arr (patch_group_modules ms))) "modules"
          = some (JVal.arr (patch_group_modules ms)) := dget_dset_self _ _ _
    have hv2 : group_has_module_list
        (JVal.obj (dset g "modules" (JVal.arr (patch_group_modules ms)))) = true := by
      simp [group_has_module_list, hmods2]
    have hfr : find_drawer_group_key (ensureModulePlacement cfg) = some gk := by
      unfold find_drawer_group_key at hf
      by_cases hpc : group_has_module_list (dgetD cfg "group/tray-expander" JVal.null) = true
      · rw [if_pos hpc] at hf
        injection hf with hf
        subst hf
        unfold find_drawer_group_key
        have htray : dgetD (ensureModulePlacement cfg) "group/tray-expander" JVal.null
            = JVal.obj (dset g "modules" (JVal.arr (patch_group_modules ms))) := by
          rw [dgetD, hgetgk, Option.getD_some]
        rw [htray, if_pos hv2]
      · rw [if_neg hpc] at hf
        have hne : gk ≠ "group/tray-expander" := by
          intro hh; subst hh
          obtain ⟨v, hv, hgv⟩ := scan_groups_sound hn hf
          rw [dgetD, hv, Option.getD_some] at hpc
          exact hpc hgv
        unfold find_drawer_group_key
        have htray : dgetD (ensureModulePlacement cfg) "group/tray-expander" JVal.null
            = dgetD cfg "group/tray-expander" JVal.null := by
          rw [dgetD, dgetD, h1, rff_dget_not_mem (by decide), plg_dget_ne (Ne.symm hne)]
        rw [htray, if_neg hpc, h1, rff_scan flat_keys_not_group, hplg,
          scan_groups_dset_found hn hf hv2]
    have hplg2 : patch_located_group (ensureModulePlacement cfg) gk
        = ensureModulePlacement cfg := by
      rw [plg_eq hgetgk hmods2, patch_group_modules_idem, dset_same _ _ _ hmods2]
      exact dset_same _ _ _ hgetgk
    rw [keyS _ _ hfr, hplg2]
    refine rff_fixed ?_
    intro k hk
    rw [h1]
    exact rff_establishes flat_keys_nodup k hk

/-- Witness for C3 at a concrete document. -/
theorem ensureModulePlacement_idem_witness :
    ensureModulePlacement (ensureModulePlacement
        [("modules-right", JVal.arr [JVal.str "cpu"])])
      = ensureModulePlacement [("modules-right", JVal.arr [JVal.str "cpu"])] :=
  ensureModulePlacement_idem [("modules-right", JVal.arr [JVal.str "cpu"])] (by decide)

theorem inject_right_arr_of_find_some {xs : List JVal} {t : String}
    (hw : (xs.any fun x => jstr_eq x wizado_id) = false)
    (ht : anchor_targets.find? (fun a => xs.any fun x => jstr_eq x a) = some t) :
    inject_right (JVal.arr xs)
      = JVal.arr (xs.takeWhile (fun x => !jstr_eq x t) ++
          JVal.str wizado_id :: xs.dropWhile (fun x => !jstr_eq x t)) := by
  rw [inject_right, if_neg (by rw [hw]; simp), ht]

theorem inject_right_arr_of_find_none {xs : List JVal}
    (hw : (xs.any fun x => jstr_eq x wizado_id) = false)
    (ht : anchor_targets.find? (fun a => xs.any fun x => jstr_eq x a) = none) :
    inject_right (JVal.arr xs) = JVal.arr (xs ++ [JVal.str wizado_id]) := by
  rw [inject_right, if_neg (by rw [hw]; simp), ht]

/-- C1 counterexample.  For `modules-right = ["network", "bluetooth"]` (no
drawer group anywhere) the code probes the anchor set in preference order,
finds `bluetooth` first, and inserts before it — producing
`["network", "custom/wizado", "bluetooth"]` — whereas inserting before the
first element of the list that belongs to the anchor set (`network`, as
the claim reads) would produce `["custom/wizado", "network", "bluetooth"]`.
The two results differ. -/
theorem ensure_right_insert_cex :
    dget (ensureModulePlacement
        [("modules-right", JVal.arr [JVal.str "network", JVal.str "bluetooth"])])
      "modules-right"
      = some (JVal.arr [JVal.str "network", JVal.str wizado_id, JVal.str "bluetooth"])
    ∧ spec_insert_right [JVal.str "network", JVal.str "bluetooth"]
      = [JVal.str wizado_id, JVal.str "network", JVal.str "bluetooth"]
    ∧ ([JVal.str "network", JVal.str wizado_id, JVal.str "bluetooth"] : List JVal)
      ≠ [JVal.str wizado_id, JVal.str "network", JVal.str "bluetooth"] := by
  refine ⟨rfl, rfl, ?_⟩
  intro h
  injection h with h1 h2
  injection h1 with h1
  exact absurd h1 (by decide)

/-- C1 (amended).  When no drawer group is located and `modules-right` is
a list not yet holding the module id, the module is inserted immediately
before the first occurrence of the first anchor present in the probe order
`bluetooth, network, pulseaudio, cpu, battery` (which need not be the
positionally first anchor-set element of the list), and is appended at the
end when no anchor-set member is present. -/
theorem ensure_right_insert (cfg : JObj) (xs : List JVal)
    (h1 : find_drawer_group_key cfg = none)
    (h2 : dget cfg "modules-right" = some (JVal.arr xs))
    (h3 : (xs.any fun x => jstr_eq x wizado_id) = false) :
    (∀ t, anchor_targets.find? (fun a => xs.any fun x => jstr_eq x a) = some t →
        dget (ensureModulePlacement cfg) "modules-right"
          = some (JVal.arr (xs.takeWhile (fun x => !jstr_eq x t) ++
              JVal.str wizado_id :: xs.dropWhile (fun x => !jstr_eq x t))))
      ∧ (anchor_targets.find? (fun a => xs.any fun x => jstr_eq x a) = none →
        dget (ensureModulePlacement cfg) "modules-right"
          = some (JVal.arr (xs ++ [JVal.str wizado_id]))) := by
  have hbase : dget (ensureModulePlacement cfg) "modules-right"
      = some (inject_right (JVal.arr xs)) := by
    simp only [ensureModulePlacement, h1, dgetD, h2, Option.getD_some]
    exact dget_dset_self _ _ _
  constructor
  · intro t ht
    rw [hbase, inject_right_arr_of_find_some h3 ht]
  · intro ht
    rw [hbase, inject_right_arr_of_find_none h3 ht]

/-- Witness for C1's amended theorem: `cpu` is the only anchor present. -/
theorem ensure_right_insert_witness :
    dget (ensureModulePlacement [("modules-right", JVal.arr [JVal.str "cpu"])])
      "modules-right"
      = some (JVal.arr [JVal.str wizado_id, JVal.str "cpu"]) := by
  have h := (ensure_right_insert [("modules-right", JVal.arr [JVal.str "cpu"])]
      [JVal.str "cpu"] rfl rfl rfl).1 "cpu" rfl
  rw [h]
  rfl

theorem dget_some_mem_pair {l : JObj} {k : String} {v : JVal}
    (h : dget l k = some v) : (k, v) ∈ l := by
  induction l with
  | nil => simp [dget] at h
  | cons kv rest ih =>
    obtain ⟨a, b⟩ := kv
    by_cases hak : a = k
    · subst hak
      rw [dget, if_pos rfl] at h
      injection h with h; subst h
      simp
    · rw [dget, if_neg hak] at h
      exact List.mem_cons_of_mem _ (ih h)

theorem group_wiz_count_dset_not_group {l : JObj} {k : String} {v : JVal}
    (h : starts_with_group k = false) :
    group_wiz_count (dset l k v) = group_wiz_count l := by
  induction l with
  | nil => simp [dset, group_wiz_count, group_entry_has_wiz, h]
  | cons kv rest ih =>
    obtain ⟨a, b⟩ := kv
    by_cases hak : a = k
    · subst hak
      simp [dset, group_wiz_count, group_entry_has_wiz, h]
    · unfold group_wiz_count at ih ⊢
      rw [dset, if_neg hak, List.filter_cons, List.filter_cons]
      by_cases hgb : group_entry_has_wiz (a, b) = true
      · rw [if_pos hgb, if_pos hgb]
        simp [ih]
      · rw [if_neg hgb, if_neg hgb]
        exact ih

theorem group_wiz_count_dset_of_all_false {l : JObj} {k : String} {v : JVal}
    (h : ∀ e ∈ l, group_entry_has_wiz e = false)
    (hv : group_entry_has_wiz (k, v) = true) :
    group_wiz_count (dset l k v) = 1 := by
  induction l with
  | nil => simp [dset, group_wiz_count, hv]
  | cons kv rest ih =>
    obtain ⟨a, b⟩ := kv
    by_cases hak : a = k
    · subst hak
      have hrest : rest.filter group_entry_has_wiz = [] := by
        rw [List.filter_eq_nil_iff]
        intro e he
        simp [h e (List.mem_cons_of_mem _ he)]
      unfold group_wiz_count
      rw [dset, if_pos rfl, List.filter_cons, if_pos hv, hrest]
      rfl
    · have hab : group_entry_has_wiz (a, b) = false := h (a, b) (by simp)
      unfold group_wiz_count
      rw [dset, if_neg hak, List.filter_cons, if_neg (by simp [hab])]
      exact ih (fun e he => h e (List.mem_cons_of_mem _ he))

theorem group_wiz_count_rff {l : JObj} {ks : List String}
    (h : ∀ k ∈ ks, starts_with_group k = false) :
    group_wiz_count (remove_from_flats l ks) = group_wiz_count l := by
  induction ks generalizing l with
  | nil => rfl
  | cons a rest ih =>
    rw [remove_from_flats, ih (fun k hk => h k (List.mem_cons_of_mem _ hk)),
      group_wiz_count_dset_not_group (h a (List.mem_cons_self _ _))]

/-- C2 counterexample.  For the document `{"modules-left":
["custom/wizado"]}` (no drawer group), the placement inserts the module id
into `modules-right` but never cleans `modules-left`, so afterwards the id
sits in two module-list locations at once. -/
theorem ensure_single_location_cex :
    wiz_location_count (ensureModulePlacement
        [("modules-left", JVal.arr [JVal.str wizado_id])]) = 2 := by
  rfl

/-- C2 (amended).  For a parsed config document (keys unique) in which the
module id appears in none of the counted module-list locations, the
placement leaves it in exactly one location. -/
theorem ensure_single_location (cfg : JObj)
    (hn : (cfg.map Prod.fst).Nodup)
    (h0 : wiz_location_count cfg = 0) :
    wiz_location_count (ensureModulePlacement cfg) = 1 := by
  have hf0 : flat_wiz_count cfg = 0 := by
    unfold wiz_location_count at h0
    omega
  have hg0 : group_wiz_count cfg = 0 := by
    unfold wiz_location_count at h0
    omega
  have hall : ∀ e ∈ cfg, group_entry_has_wiz e = false := by
    unfold group_wiz_count at hg0
    rw [List.length_eq_zero, List.filter_eq_nil_iff] at hg0
    intro e he
    simpa using hg0 e he
  have hml : list_has_wiz (dgetD cfg "modules-left" JVal.null) = false := by
    cases hb : list_has_wiz (dgetD cfg "modules-left" JVal.null)
    · rfl
    · exfalso
      have h := hf0
      rw [flat_wiz_count, hb] at h
      simp at h
  have hmc : list_has_wiz (dgetD cfg "modules-center" JVal.null) = false := by
    cases hb : list_has_wiz (dgetD cfg "modules-center" JVal.null)
    · rfl
    · exfalso
      have h := hf0
      rw [flat_wiz_count, hb] at h
      simp at h
  cases hf : find_drawer_group_key cfg with
  | none =>
    have h1 : ensureModulePlacement cfg
        = dset cfg "modules-right"
            (inject_right (dgetD cfg "modules-right" (JVal.arr []))) := by
      simp only [ensureModulePlacement, hf]
    have hx : dgetD (dset cfg "modules-right"
          (inject_right (dgetD cfg "modules-right" (JVal.arr []))))
        "modules-right" JVal.null
        = inject_right (dgetD cfg "modules-right" (JVal.arr [])) := by
      rw [dgetD, dget_dset_self, Option.getD_some]
    rw [h1, wiz_location_count, flat_wiz_count,
      dgetD_dset_ne _ _ _ _ _ (by decide : "modules-left" ≠ "modules-right"),
      dgetD_dset_ne _ _ _ _ _ (by decide : "modules-center" ≠ "modules-right"),
      hx, list_has_wiz_inject_right, hml, hmc,
      group_wiz_count_dset_not_group (by decide), hg0]
    simp
  | some gk =>
    obtain ⟨g, ms, hg, hm⟩ := find_drawer_group_key_sound hn hf
    have hplg := plg_eq hg hm
    have hstarts : starts_with_group gk = true := find_some_starts hf
    have h1 : ensureModulePlacement cfg
        = remove_from_flats (patch_located_group cfg gk) flat_keys := by
      simp only [ensureModulePlacement, hf]
    have hmods2 : dgetD (dset g "modules" (JVal.arr (patch_group_modules ms)))
        "modules" JVal.null = JVal.arr (patch_group_modules ms) := by
      rw [dgetD, dget_dset_self, Option.getD_some]
    have hv2 : group_entry_has_wiz
        (gk, JVal.obj (dset g "modules" (JVal.arr (patch_group_modules ms)))) = true := by
      simp only [group_entry_has_wiz, hmods2]
      rw [hstarts]
      simp [list_has_wiz, patch_group_modules_has_wiz]
    have hgw : group_wiz_count (remove_from_flats (patch_located_group cfg gk) flat_keys)
        = 1 := by
      rw [group_wiz_count_rff flat_keys_not_group, hplg,
        group_wiz_count_dset_of_all_false hall hv2]
    have hflatw : ∀ k ∈ flat_keys,
        list_has_wiz (dgetD (remove_from_flats (patch_located_group cfg gk) flat_keys)
          k JVal.null) = false := by
      intro k hk
      rw [dgetD, rff_dget_mem flat_keys_nodup hk, Option.getD_some]
      exact list_has_wiz_remove _
    rw [h1, wiz_location_count, flat_wiz_count,
      hflatw _ (by decide), hflatw _ (by decide), hflatw _ (by decide), hgw]
    simp

/-- Witness for C2's amended theorem: the empty document. -/
theorem ensure_single_location_witness :
    wiz_location_count (ensureModulePlacement []) = 1 :=
  ensure_single_location [] (by decide) rfl

/-- C4.  For a located drawer group whose `modules` list is
`["tray", "network"]`, placement makes it
`["tray", "custom/wizado", "network"]` (insertion right after the `"tray"`
sentinel) and the module id is in none of the flat lists afterwards. -/
theorem ensure_drawer_tray_network (cfg : JObj) (gk : String) (g : JObj)
    (hf : find_drawer_group_key cfg = some gk)
    (hg : dget cfg gk = some (JVal.obj g))
    (hm : dget g "modules" = some (JVal.arr [JVal.str "tray", JVal.str "network"])) :
    (∃ g2, dget (ensureModulePlacement cfg) gk = some (JVal.obj g2)
        ∧ dget g2 "modules"
            = some (JVal.arr [JVal.str "tray", JVal.str wizado_id, JVal.str "network"]))
      ∧ ∀ fk ∈ flat_keys, ∀ xs,
          dget (ensureModulePlacement cfg) fk = some (JVal.arr xs)
            → JVal.str wizado_id ∉ xs := by
  have h1 : ensureModulePlacement cfg
      = remove_from_flats (patch_located_group cfg gk) flat_keys := by
    simp only [ensureModulePlacement, hf]
  have hplg := plg_eq hg hm
  have hflat := starts_not_flat (find_some_starts hf)
  constructor
  · refine ⟨dset g "modules"
        (JVal.arr (patch_group_modules [JVal.str "tray", JVal.str "network"])), ?_, ?_⟩
    · rw [h1, rff_dget_not_mem hflat, hplg, dget_dset_self]
    · rw [dget_dset_self]
      rfl
  · intro fk hfk xs hxs
    rw [h1, rff_dget_mem flat_keys_nodup hfk] at hxs
    injection hxs with hxs
    intro hmem
    have hfalse := list_has_wiz_remove (dgetD (patch_located_group cfg gk) fk (JVal.arr []))
    rw [hxs] at hfalse
    have hzero : (xs.any fun x => jstr_eq x wizado_id) = false := by
      simpa [list_has_wiz] using hfalse
    have hone : (xs.any fun x => jstr_eq x wizado_id) = true := by
      rw [List.any_eq_true]
      exact ⟨_, hmem, by simp [jstr_eq]⟩
    rw [hone] at hzero
    cases hzero

/-- Witness for C4 at a concrete document. -/
theorem ensure_drawer_tray_network_witness :
    ∃ g2, dget (ensureModulePlacement
        [("group/tray-expander", JVal.obj [("modules",
            JVal.arr [JVal.str "tray", JVal.str "network"])])]) "group/tray-expander"
      = some (JVal.obj g2)
      ∧ dget g2 "modules"
          = some (JVal.arr [JVal.str "tray", JVal.str wizado_id, JVal.str "network"]) :=
  (ensure_drawer_tray_network
    [("group/tray-expander", JVal.obj [("modules",
        JVal.arr [JVal.str "tray", JVal.str "network"])])]
    "group/tray-expander"
    [("modules", JVal.arr [JVal.str "tray", JVal.str "network"])] rfl rfl rfl).1

/-- C5.  For a located drawer group whose `modules` list is empty (no
`"tray"` sentinel), placement makes it
`["custom/expand-icon", "custom/wizado"]`: the module is appended and,
being first, the expand-icon sentinel is prepended before it. -/
theorem ensure_drawer_empty (cfg : JObj) (gk : String) (g : JObj)
    (hf : find_drawer_group_key cfg = some gk)
    (hg : dget cfg gk = some (JVal.obj g))
    (hm : dget g "modules" = some (JVal.arr [])) :
    ∃ g2, dget (ensureModulePlacement cfg) gk = some (JVal.obj g2)
      ∧ dget g2 "modules"
          = some (JVal.arr [JVal.str expand_icon_id, JVal.str wizado_id]) := by
  have h1 : ensureModulePlacement cfg
      = remove_from_flats (patch_located_group cfg gk) flat_keys := by
    simp only [ensureModulePlacement, hf]
  have hplg := plg_eq hg hm
  have hflat := starts_not_flat (find_some_starts hf)
  refine ⟨dset g "modules" (JVal.arr (patch_group_modules [])), ?_, ?_⟩
  · rw [h1, rff_dget_not_mem hflat, hplg, dget_dset_self]
  · rw [dget_dset_self]
    rfl

/-- Witness for C5 at a concrete document. -/
theorem ensure_drawer_empty_witness :
    ∃ g2, dget (ensureModulePlacement
        [("group/tray-expander", JVal.obj [("modules", JVal.arr [])])])
      "group/tray-expander" = some (JVal.obj g2)
      ∧ dget g2 "modules"
          = some (JVal.arr [JVal.str expand_icon_id, JVal.str wizado_id]) :=
  ensure_drawer_empty
    [("group/tray-expander", JVal.obj [("modules", JVal.arr [])])]
    "group/tray-expander" [("modules", JVal.arr [])] rfl rfl rfl

/-- C9.  When a drawer group is located, the cleanup loop assigns all
three flat-list keys: an absent key is created with the empty list, a key
bound to a non-list keeps its value, and every top-level key other than
the located group's and the flat-list keys is untouched (in particular the
module-definition key is not modified by the placement itself). -/
theorem ensure_flat_frame (cfg : JObj) (gk : String)
    (hf : find_drawer_group_key cfg = some gk) :
    (∀ fk ∈ flat_keys, dget cfg fk = none →
        dget (ensureModulePlacement cfg) fk = some (JVal.arr []))
      ∧ (∀ fk ∈ flat_keys, ∀ v, dget cfg fk = some v → (∀ xs, v ≠ JVal.arr xs) →
        dget (ensureModulePlacement cfg) fk = some v)
      ∧ (∀ k, k ≠ gk → k ∉ flat_keys →
        dget (ensureModulePlacement cfg) k = dget cfg k) := by
  have h1 : ensureModulePlacement cfg
      = remove_from_flats (patch_located_group cfg gk) flat_keys := by
    simp only [ensureModulePlacement, hf]
  have hflat := starts_not_flat (find_some_starts hf)
  have hplgne : ∀ fk ∈ flat_keys,
      dget (patch_located_group cfg gk) fk = dget cfg fk := by
    intro fk hfk
    exact plg_dget_ne (fun hh => hflat (hh ▸ hfk))
  refine ⟨?_, ?_, ?_⟩
  · intro fk hfk hnone
    rw [h1, rff_dget_mem flat_keys_nodup hfk, dgetD, hplgne fk hfk, hnone]
    rfl
  · intro fk hfk v hv hnarr
    rw [h1, rff_dget_mem flat_keys_nodup hfk, dgetD, hplgne fk hfk, hv, Option.getD_some,
      remove_module_not_arr hnarr]
  · intro k hkgk hkflat
    rw [h1, rff_dget_not_mem hkflat, plg_dget_ne hkgk]

/-- Witness for C9: absent `modules-right` is created empty, a non-list
`modules-left` keeps its value, and an unrelated key is untouched. -/
theorem ensure_flat_frame_witness :
    dget (ensureModulePlacement
        [("group/tray-expander", JVal.obj [("modules", JVal.arr [])]),
         ("foo", JVal.str "bar"), ("modules-left", JVal.str "oops")])
      "modules-right" = some (JVal.arr [])
    ∧ dget (ensureModulePlacement
        [("group/tray-expander", JVal.obj [("modules", JVal.arr [])]),
         ("foo", JVal.str "bar"), ("modules-left", JVal.str "oops")])
      "modules-left" = some (JVal.str "oops")
    ∧ dget (ensureModulePlacement
        [("group/tray-expander", JVal.obj [("modules", JVal.arr [])]),
         ("foo", JVal.str "bar"), ("modules-left", JVal.str "oops")])
      "foo" = some (JVal.str "bar") := by
  obtain ⟨ha, hb, hc⟩ := ensure_flat_frame
    [("group/tray-expander", JVal.obj [("modules", JVal.arr [])]),
     ("foo", JVal.str "bar"), ("modules-left", JVal.str "oops")]
    "group/tray-expander" rfl
  refine ⟨ha "modules-right" (by decide) rfl,
    hb "modules-left" (by decide) (JVal.str "oops") rfl (fun xs h => JVal.noConfusion h),
    ?_⟩
  rw [hc "foo" (by decide) (by decide)]
  rfl

/-- C10.  When no drawer group is located and `modules-right` is bound to
a non-list value, placement is total (no exception, no abort): the value
is silently replaced by the singleton list `["custom/wizado"]`. -/
theorem ensure_nonlist_right (cfg : JObj) (v : JVal)
    (h1 : find_drawer_group_key cfg = none)
    (h2 : dget cfg "modules-right" = some v)
    (h3 : ∀ xs, v ≠ JVal.arr xs) :
    dget (ensureModulePlacement cfg) "modules-right"
      = some (JVal.arr [JVal.str wizado_id]) := by
  simp only [ensureModulePlacement, h1, dgetD, h2, Option.getD_some]
  rw [dget_dset_self]
  congr 1
  cases v <;> first
    | rfl
    | exact absurd rfl (h3 _)

/-- Witness for C10: `modules-right` bound to the number 5. -/
theorem ensure_nonlist_right_witness :
    dget (ensureModulePlacement [("modules-right", JVal.num 5)]) "modules-right"
      = some (JVal.arr [JVal.str wizado_id]) :=
  ensure_nonlist_right [("modules-right", JVal.num 5)] (JVal.num 5) rfl rfl
    (fun _ h => JVal.noConfusion h)

theorem dget_isSome_of_mem_keys {l : JObj} {k : String}
    (h : k ∈ l.map Prod.fst) : ∃ v, dget l k = some v := by
  induction l with
  | nil => simp at h
  | cons kv rest ih =>
    obtain ⟨a, b⟩ := kv
    by_cases hak : a = k
    · exact ⟨b, by rw [dget, if_pos hak]⟩
    · rw [List.map_cons, List.mem_cons] at h
      rcases h with h | h
      · exact absurd h.symm hak
      · obtain ⟨v, hv⟩ := ih h
        exact ⟨v, by rw [dget, if_neg hak, hv]⟩

theorem dget_dset_all_not_mem {o fields : JObj} {k : String}
    (h : k ∉ fields.map Prod.fst) :
    dget (dset_all o fields) k = dget o k := by
  induction fields generalizing o with
  | nil => rfl
  | cons kv rest ih =>
    obtain ⟨a, b⟩ := kv
    rw [List.map_cons, List.mem_cons, not_or] at h
    rw [dset_all, ih h.2, dget_dset_ne _ _ _ _ h.1]

theorem dget_dset_all_some {o fields : JObj} {k : String} {v : JVal}
    (hn : (fields.map Prod.fst).Nodup)
    (h : dget fields k = some v) :
    dget (dset_all o fields) k = some v := by
  induction fields generalizing o with
  | nil => simp [dget] at h
  | cons kv rest ih =>
    obtain ⟨a, b⟩ := kv
    rw [List.map_cons, List.nodup_cons] at hn
    by_cases hak : a = k
    · subst hak
      rw [dget, if_pos rfl] at h
      injection h with h; subst h
      rw [dset_all, dget_dset_all_not_mem hn.1, dget_dset_self]
    · rw [dget, if_neg hak] at h
      rw [dset_all]
      exact ih hn.2 h

theorem dget_dset_all_none {o fields : JObj} {k : String}
    (h : dget fields k = none) :
    dget (dset_all o fields) k = dget o k := by
  apply dget_dset_all_not_mem
  intro hm
  obtain ⟨v, hv⟩ := dget_isSome_of_mem_keys hm
  rw [h] at hv
  cases hv

/-- C6.  When the module id is already bound to a definition dict, the
upsert merges the supplied fields into it: supplied keys take the supplied
value, unmentioned keys keep their prior value, and after a second call
with another field set the first call's fields that the second set omits
are still present. -/
theorem upsertModuleDefinition_merges (cfg : JObj) (mid : String) (e fields : JObj)
    (he : dget cfg mid = some (JVal.obj e))
    (hnd : (fields.map Prod.fst).Nodup) :
    ∃ e2, dget (upsertModuleDefinition cfg mid fields) mid = some (JVal.obj e2)
      ∧ (∀ k v, dget fields k = some v → dget e2 k = some v)
      ∧ (∀ k, dget fields k = none → dget e2 k = dget e k)
      ∧ (∀ f2 k v, dget fields k = some v → dget f2 k = none →
          ∃ e3, dget (upsertModuleDefinition (upsertModuleDefinition cfg mid fields)
              mid f2) mid = some (JVal.obj e3)
            ∧ dget e3 k = some v) := by
  have hu : upsertModuleDefinition cfg mid fields
      = dset cfg mid (JVal.obj (dset_all e fields)) := by
    simp only [upsertModuleDefinition, he]
  refine ⟨dset_all e fields, ?_, ?_, ?_, ?_⟩
  · rw [hu, dget_dset_self]
  · intro k v h
    exact dget_dset_all_some hnd h
  · intro k h
    exact dget_dset_all_none h
  · intro f2 k v hv hnone
    have hget2 : dget (upsertModuleDefinition cfg mid fields) mid
        = some (JVal.obj (dset_all e fields)) := by
      rw [hu, dget_dset_self]
    have key : ∀ (c ee : JObj), dget c mid = some (JVal.obj ee) →
        upsertModuleDefinition c mid f2 = dset c mid (JVal.obj (dset_all ee f2)) := by
      intro c ee hc
      simp only [upsertModuleDefinition, hc]
    have hu2 := key _ _ hget2
    refine ⟨dset_all (dset_all e fields) f2, ?_, ?_⟩
    · rw [hu2, dget_dset_self]
    · rw [dget_dset_all_none hnone]
      exact dget_dset_all_some hnd hv

/-- Witness for C6: updating `format` and adding `on-click` keeps the
untouched `interval` field. -/
theorem upsertModuleDefinition_merges_witness :
    ∃ e2, dget (upsertModuleDefinition
        [(wizado_id, JVal.obj [("format", JVal.str "\x7b\x7d"), ("interval", JVal.num 2)])]
        wizado_id [("format", JVal.str "icon"), ("on-click", JVal.str "cmd")]) wizado_id
      = some (JVal.obj e2)
      ∧ dget e2 "on-click" = some (JVal.str "cmd")
      ∧ dget e2 "interval" = some (JVal.num 2) := by
  obtain ⟨e2, h1, h2, h3, h4⟩ := upsertModuleDefinition_merges
    [(wizado_id, JVal.obj [("format", JVal.str "\x7b\x7d"), ("interval", JVal.num 2)])]
    wizado_id
    [("format", JVal.str "\x7b\x7d"), ("interval", JVal.num 2)]
    [("format", JVal.str "icon"), ("on-click", JVal.str "cmd")]
    rfl (by decide)
  refine ⟨e2, h1, h2 "on-click" _ rfl, ?_⟩
  rw [h3 "interval" rfl]
  rfl

/-- C7.  The run writes only after the whole in-memory transform and
serialization succeed: an unreadable file, a parse failure after comment
stripping, or a non-object parse result (which raises during traversal)
all leave the file's contents exactly unchanged; on success the file holds
the serialized transformed document plus a trailing newline. -/
theorem runScript_write_discipline (loads : String → Option JVal)
    (dumps : JObj → String) (moduleDef : JVal) :
    runScript loads dumps moduleDef none = none
      ∧ (∀ raw, loads (strip_comments raw) = none →
          runScript loads dumps moduleDef (some raw) = some raw)
      ∧ (∀ raw v, loads (strip_comments raw) = some v → (∀ cfg, v ≠ JVal.obj cfg) →
          runScript loads dumps moduleDef (some raw) = some raw)
      ∧ (∀ raw cfg, loads (strip_comments raw) = some (JVal.obj cfg) →
          runScript loads dumps moduleDef (some raw)
            = some (dumps (full_transform cfg moduleDef) ++ "\n")) := by
  refine ⟨rfl, ?_, ?_, ?_⟩
  · intro raw h
    simp only [runScript, h]
  · intro raw v h hno
    cases v with
    | obj g => exact absurd rfl (hno g)
    | null => simp only [runScript, h]
    | bool b => simp only [runScript, h]
    | num n => simp only [runScript, h]
    | str s => simp only [runScript, h]
    | arr xs => simp only [runScript, h]
  · intro raw cfg h
    simp only [runScript, h]

/-- Witness for C7: a parser that always fails leaves the file unchanged. -/
theorem runScript_write_discipline_witness :
    runScript (fun _ => none) (fun _ => "") JVal.null (some "x") = some "x" :=
  (runScript_write_discipline (fun _ => none) (fun _ => "") JVal.null).2.1 "x" rfl

/-- C8.  Terminal resolution probes `ghostty, alacritty, kitty, foot,
gnome-terminal, konsole` in order and returns the first present program
suffixed with its run-a-command flag (`--` for gnome-terminal, `-e` for
every other), falling back to `alacritty -e` when none is present. -/
theorem get_terminal_cmd_spec (which : String → Bool) :
    (∀ t, terms.find? which = some t →
        get_terminal_cmd which
          = t ++ (if t = "gnome-terminal" then " --" else " -e"))
      ∧ (terms.find? which = none → get_terminal_cmd which = "alacritty -e") := by
  have aux : ∀ l : List String,
      (∀ t, l.find? which = some t →
          get_terminal_cmd_from l which
            = t ++ (if t = "gnome-terminal" then " --" else " -e"))
        ∧ (l.find? which = none → get_terminal_cmd_from l which = "alacritty -e") := by
    intro l
    induction l with
    | nil => exact ⟨fun t ht => by simp [List.find?] at ht, fun _ => rfl⟩
    | cons a rest ih =>
      constructor
      · intro t ht
        by_cases ha : which a = true
        · rw [List.find?_cons_of_pos _ ha] at ht
          injection ht with ht; subst ht
          rw [get_terminal_cmd_from, if_pos ha]
          by_cases hg : a = "gnome-terminal"
          · rw [if_pos hg, if_pos hg]
          · rw [if_neg hg, if_neg hg]
            by_cases hk : a = "konsole"
            · rw [if_pos hk]
            · rw [if_neg hk]
        · rw [List.find?_cons_of_neg _ ha] at ht
          rw [get_terminal_cmd_from, if_neg ha]
          exact ih.1 t ht
      · intro ht
        by_cases ha : which a = true
        · rw [List.find?_cons_of_pos _ ha] at ht
          cases ht
        · rw [List.find?_cons_of_neg _ ha] at ht
          rw [get_terminal_cmd_from, if_neg ha]
          exact ih.2 ht
  exact aux terms

/-- Witness for C8: only `kitty` is installed. -/
theorem get_terminal_cmd_spec_witness :
    get_terminal_cmd (fun t => t == "kitty") = "kitty -e" := by
  have h := (get_terminal_cmd_spec (fun t => t == "kitty")).1 "kitty" rfl
  rw [h]
  rfl

end WizadoOmarchy
